import Mathlib

/-!
Verification development for the lumberjack persistence backend subsystem.

The embedding follows the source of the batched persistent store
(IndexedDBBackend), the append-only stream backend (FileBackend), the
argument encoder (Utilities.encode) and the facade record assembly
(Lumberjack.sendToBackend).  Platform primitives (the IndexedDB engine,
the deflate codec, JSON.stringify and JSON.parse, the Node write stream)
are modelled at their interface boundary; everything the repository
itself computes is translated directly.
-/

namespace Lumberjack

/-- Backend-side stored form of a log record (type StoredDetails in the
source): timestamp is an integer epoch in milliseconds and every
argument has already been encoded to a string. -/
structure StoredDetails where
  message    : String
  timestamp  : Int
  arguments  : List String
  namespaces : List String
  level      : String
  contextId  : String
deriving DecidableEq, Repr

/-- Abstract JSON values, used to model what JSON.stringify serializes
and what JSON.parse returns.  Field lists keep insertion order, as the
platform does. -/
inductive Json where
  | str : String → Json
  | num : Int → Json
  | arr : List Json → Json
  | obj : List (String × Json) → Json

/-- JSON view of one stored record, with the field insertion order the
source object literal produces. -/
def encodeRecord (r : StoredDetails) : Json :=
  .obj [("timestamp", .num r.timestamp),
        ("arguments", .arr (r.arguments.map .str)),
        ("namespaces", .arr (r.namespaces.map .str)),
        ("level", .str r.level),
        ("contextId", .str r.contextId),
        ("message", .str r.message)]

/-- JSON view of a whole batch, as serialized by JSON.stringify(data)
in flushToDatabase. -/
def encodeRecords (rs : List StoredDetails) : Json :=
  .arr (rs.map encodeRecord)

/-- Reconstruction of a string array from parsed JSON. -/
def decodeStrs : List Json → Option (List String)
  | [] => some []
  | .str s :: rest => (decodeStrs rest).map (fun t => s :: t)
  | _ => none

/-- Reconstruction of one stored record from parsed JSON, the shape the
decompress path reads back. -/
def decodeRecord : Json → Option StoredDetails
  | .obj [("timestamp", .num t), ("arguments", .arr as),
          ("namespaces", .arr ns), ("level", .str l),
          ("contextId", .str c), ("message", .str m)] =>
      match decodeStrs as, decodeStrs ns with
      | some as', some ns' => some ⟨m, t, as', ns', l, c⟩
      | _, _ => none
  | _ => none

/-- Reconstruction of a record list from parsed JSON. -/
def decodeRecordList : List Json → Option (List StoredDetails)
  | [] => some []
  | j :: rest =>
      match decodeRecord j, decodeRecordList rest with
      | some r, some rs => some (r :: rs)
      | _, _ => none

/-- Reconstruction of the batch array, the JSON.parse(content) step of
IndexedDBBackend.decompress. -/
def decodeRecords : Json → Option (List StoredDetails)
  | .arr js => decodeRecordList js
  | _ => none

theorem decodeStrs_map (xs : List String) :
    decodeStrs (xs.map .str) = some xs := by
  induction xs with
  | nil => rfl
  | cons x rest ih => simp [decodeStrs, ih]

theorem decodeRecord_encodeRecord (r : StoredDetails) :
    decodeRecord (encodeRecord r) = some r := by
  simp [encodeRecord, decodeRecord, decodeStrs_map]

theorem decodeRecordList_map (rs : List StoredDetails) :
    decodeRecordList (rs.map encodeRecord) = some rs := by
  induction rs with
  | nil => rfl
  | cons r rest ih => simp [decodeRecordList, decodeRecord_encodeRecord, ih]

theorem decodeRecords_encodeRecords (rs : List StoredDetails) :
    decodeRecords (encodeRecords rs) = some rs := by
  simp [encodeRecords, decodeRecords, decodeRecordList_map]

/-- Platform compression pipeline: comp models TextEncoder.encode after
JSON.stringify followed by the deflate CompressionStream, decomp models
the deflate DecompressionStream followed by TextDecoder.decode and
JSON.parse.  The produced buffer is indexed by the JSON value it
encodes, since the byte content itself never matters to the backend. -/
structure Codec where
  comp : Json → Json
  decomp : Json → Option Json

/-- Losslessness of the platform codec, the symmetry property the spec
requires of the compression format. -/
def Codec.RoundTrip (c : Codec) : Prop :=
  ∀ j, c.decomp (c.comp j) = some j

/-- Trivial lossless codec, usable to instantiate the codec-generic
theorems on concrete inputs. -/
def idCodec : Codec :=
  ⟨fun j => j, fun j => some j⟩

theorem idCodec_roundTrip : idCodec.RoundTrip := by
  intro j; rfl

/-- One durable entry of the logs object store: either a plain stored
record, or the object with a flush timestamp and a compressed buffer
that the compression path adds. -/
inductive DurableEntry where
  | plain : StoredDetails → DurableEntry
  | compressed : Int → Json → DurableEntry

/-- Timestamp field of a durable entry, the value the timestamp index
sorts on. -/
def entryTimestamp : DurableEntry → Int
  | .plain d => d.timestamp
  | .compressed t _ => t

/-- Records represented by one durable entry: a plain entry is itself,
a compressed entry is decompressed and parsed (and, as in export,
contributes nothing when the buffer does not parse). -/
def recordsOfEntry (dec : Json → Option Json) : DurableEntry → List StoredDetails
  | .plain d => [d]
  | .compressed _ buf => (((dec buf).bind decodeRecords).getD [])

/-- Mutable state of an IndexedDBBackend instance: the in-memory pending
queue toFlush, the durable object store in ascending key (insertion)
order, and whether the database open succeeded. -/
structure BState where
  toFlush : List StoredDetails
  store   : List DurableEntry
  dbInit  : Bool

/-- Outcome of the promise returned by flushToDatabase. -/
inductive FlushResult where
  | resolved : FlushResult
  | rejected : FlushResult
deriving DecidableEq, Repr

/-- One run of IndexedDBBackend.flushToDatabase.  Parameters:
compressionSupported models typeof CompressionStream (together with the
codec), minRecords is options.minimumRecordsToCompress, now is the
Date.now() taken when building the compressed entry, txFails tells
whether the readwrite transaction fires onerror instead of oncomplete.
Returns the new state, the promise outcome, and the list of entries the
transaction committed durably (empty when the transaction failed, since
an aborted IndexedDB transaction rolls its adds back). -/
def flushToDatabase (c : Codec) (compressionSupported : Bool)
    (minRecords : Nat) (now : Int) (txFails : Bool) (s : BState) :
    BState × FlushResult × List DurableEntry :=
  if s.toFlush = [] then (s, .resolved, [])
  else if s.dbInit = false then (s, .resolved, [])
  else
    let data := s.toFlush
    let entries : List DurableEntry :=
      if compressionSupported ∧ minRecords ≤ data.length then
        [.compressed now (c.comp (encodeRecords data))]
      else
        data.map .plain
    if txFails then
      -- the queue was swapped to empty before the write; onerror pushes
      -- every original record of the batch back onto it
      ({ s with toFlush := data }, .rejected, [])
    else
      ({ s with toFlush := [], store := s.store ++ entries }, .resolved, entries)

/-- The public flush entry point simply delegates to flushToDatabase. -/
def flush (c : Codec) (compressionSupported : Bool) (minRecords : Nat)
    (now : Int) (txFails : Bool) (s : BState) :
    BState × FlushResult × List DurableEntry :=
  flushToDatabase c compressionSupported minRecords now txFails s

/-- IndexedDBBackend.export: walk the store in ascending key order,
expanding each compressed entry through decompress and appending plain
entries as they are. -/
def exportStore (dec : Json → Option Json) (store : List DurableEntry) :
    List StoredDetails :=
  store.flatMap (recordsOfEntry dec)

/-- IndexedDBBackend.clearOldData.  The age sub-pass walks the timestamp
index over the open range below now minus expire and deletes every
record it meets, which keeps exactly the entries whose timestamp is at
least the cutoff; it is skipped when expire is null.  The count sub-pass
walks the store by descending key, keeps the first maxNumberOfLogs
entries met and deletes the rest; it is skipped when maxNumberOfLogs is
null (or Infinity, which the option type cannot carry).  The two
readwrite transactions are created back to back on the same store, so
the engine runs the count pass over the result of the age pass. -/
def clearOldData (now : Int) (expire : Option Int)
    (maxNumberOfLogs : Option Nat) (store : List DurableEntry) :
    List DurableEntry :=
  let afterAge :=
    match expire with
    | none => store
    | some e => store.filter (fun d => now - e ≤ entryTimestamp d)
  match maxNumberOfLogs with
  | none => afterAge
  | some m => (afterAge.reverse.take m).reverse

/-- Dispatch schedule of IndexedDBBackend.exportBatch over a store
whose entries are all plain records, where execution is deterministic:
each cursor step pushes one record onto the buffer and sendBuffered
hands the whole buffer to the consumer once it holds at least
entriesAtOnce records; when the cursor is exhausted, sendBuffered
dispatches the remaining buffer unconditionally, even when it is empty.
The result lists the argument of every consumer call in dispatch order;
the promise of exportBatch resolves after all of them complete. -/
def exportBatchRun (entriesAtOnce : Nat) :
    List StoredDetails → List StoredDetails → List (List StoredDetails)
  | [], buffered => [buffered]
  | r :: rest, buffered =>
      let b := buffered ++ [r]
      if entriesAtOnce ≤ b.length then
        b :: exportBatchRun entriesAtOnce rest []
      else
        exportBatchRun entriesAtOnce rest b

/-- Consumer calls dispatched by exportBatch on a plain-record store,
starting from the empty buffer. -/
def exportBatchCalls (entriesAtOnce : Nat) (records : List StoredDetails) :
    List (List StoredDetails) :=
  exportBatchRun entriesAtOnce records []

deriving instance DecidableEq for Except

/-- Observable behaviour of a JavaScript object as far as the encoder
inspects it: the outcome of JSON.stringify on it (error meaning the
platform throws, as on a circular structure), the length of its
Object.keys, whether typeof of its constructor property is the string
object, whether the name of that constructor is a string, that name,
and its toString rendering. -/
structure JsObject where
  stringify : Except Unit String
  keysCount : Nat
  ctorIsObject : Bool
  ctorNameIsString : Bool
  ctorName : String
  toStr : String
deriving DecidableEq, Repr

/-- JavaScript values as the encoder distinguishes them. -/
inductive JsValue where
  | num : Int → JsValue
  | str : String → JsValue
  | bool : Bool → JsValue
  | nullv : JsValue
  | undef : JsValue
  | obj : JsObject → JsValue
deriving DecidableEq, Repr

/-- JavaScript truthiness test, the negation of the first guard of
Utilities.encode. -/
def isFalsy : JsValue → Bool
  | .num n => n = 0
  | .str s => s = ""
  | .bool b => !b
  | .nullv => true
  | .undef => true
  | .obj _ => false

/-- String conversion through toString, for the tail of the encoder. -/
def jsToString : JsValue → String
  | .num n => toString n
  | .str s => s
  | .bool b => if b then "true" else "false"
  | .nullv => "null"
  | .undef => "undefined"
  | .obj o => o.toStr

/-- Utilities.encode.  A falsy item yields the empty string; an object
is JSON-stringified (an exception from the platform escapes uncaught),
and when the text is the empty object literal although the object has
own enumerable keys, the constructor name is substituted, but only when
typeof of the constructor property is the string object and its name is
a string; any other truthy item is converted through toString. -/
def encode (item : JsValue) : Except Unit String :=
  if isFalsy item then .ok ""
  else
    match item with
    | .obj o =>
        match o.stringify with
        | .error u => .error u
        | .ok encoded =>
            if encoded = "{}" ∧ o.keysCount ≠ 0 then
              if o.ctorIsObject then
                if o.ctorNameIsString then .ok o.ctorName
                else .ok encoded
              else .ok encoded
            else .ok encoded
    | v => .ok (jsToString v)

/-- Left-to-right encoding of the argument array, as produced by the
map in IndexedDBBackend.log; the first exception escapes. -/
def encodeArgs : List JsValue → Except Unit (List String)
  | [] => .ok []
  | v :: rest =>
      match encode v with
      | .error u => .error u
      | .ok s =>
          match encodeArgs rest with
          | .error u => .error u
          | .ok ss => .ok (s :: ss)

/-- Details object the facade hands to the backend; timestampMs is the
getTime value of its Date timestamp. -/
structure JsLogDetails where
  timestampMs : Int
  arguments : List JsValue
  namespaces : List String
  level : String
  contextId : String

/-- IndexedDBBackend.log: the stored record pushed onto toFlush, built
by spreading the details, replacing the timestamp by its epoch value
and mapping every argument through the encoder; an error is an
exception raised to the caller of log. -/
def logRecord (message : String) (d : JsLogDetails) :
    Except Unit StoredDetails :=
  match encodeArgs d.arguments with
  | .error u => .error u
  | .ok args =>
      .ok ⟨message, d.timestampMs, args, d.namespaces, d.level, d.contextId⟩

/-- Specification-side restatement of the encoder, following the
amended wording of the ingest clause: a falsy value (zero, false, the
empty string, null, undefined) becomes the empty string; an object
becomes its JSON text, except that the constructor name is substituted
when the text is the empty object literal, the object has own
enumerable keys, and its constructor property is itself an object
carrying a string name; a platform serialization failure propagates as
an exception; any other value becomes its string form.  To be compared
with the encode definition translated from the source. -/
def specEncode (item : JsValue) : Except Unit String :=
  if isFalsy item then .ok ""
  else
    match item with
    | .obj o =>
        match o.stringify with
        | .error u => .error u
        | .ok encoded =>
            if encoded = "{}" ∧ o.keysCount ≠ 0 ∧ o.ctorIsObject ∧
                o.ctorNameIsString then
              .ok o.ctorName
            else .ok encoded
    | v => .ok (jsToString v)

/-- Specification-side argument encoding, first failure escaping. -/
def specEncodeArgs : List JsValue → Except Unit (List String)
  | [] => .ok []
  | v :: rest =>
      match specEncode v with
      | .error u => .error u
      | .ok s =>
          match specEncodeArgs rest with
          | .error u => .error u
          | .ok ss => .ok (s :: ss)

/-- Specification-side record produced by one log call: the timestamp
is the integer epoch value of the details timestamp and the arguments
are the spec-side encodings; the other fields carry over. -/
def specLogRecord (message : String) (d : JsLogDetails) :
    Except Unit StoredDetails :=
  match specEncodeArgs d.arguments with
  | .error u => .error u
  | .ok args =>
      .ok ⟨message, d.timestampMs, args, d.namespaces, d.level, d.contextId⟩

/-- Sequence of flush cycles, each finding its batch in the pending
queue and committing successfully. -/
def runFlushes (c : Codec) (compressionSupported : Bool) (minRecords : Nat)
    (now : Int) (batches : List (List StoredDetails)) (s : BState) : BState :=
  batches.foldl
    (fun st B =>
      (flushToDatabase c compressionSupported minRecords now false
        { st with toFlush := B }).1)
    s

/-- State of a FileBackend instance together with its write stream:
ready and waiting are the instance fields; drainQueue lists the message
arrays captured by pending once-drain callbacks in registration order;
written lists the payloads handed to stream.write so far; accepts is
the sink oracle giving the backpressure answer of each successive
stream.write call (false meaning the sink asks the writer to wait for
drain). -/
structure FileState where
  ready : Bool
  waiting : List String
  drainQueue : List (List String)
  written : List String
  accepts : List Bool

/-- FileBackend.write: nothing happens on an empty array; before ready
the messages are appended to the waiting buffer; otherwise the joined
lines are handed to stream.write, and when the sink reports
backpressure a once-drain callback retrying the same messages is
registered.  The stream field is always defined after setup, so the
undefined-stream guard of the source never fires here. -/
def fbWrite (messages : List String) (s : FileState) : FileState :=
  if messages = [] then s
  else if s.ready = false then
    { s with waiting := s.waiting ++ messages }
  else
    let ok := s.accepts.headD true
    let s1 := { s with
                written := s.written ++ [String.intercalate "\r\n" messages],
                accepts := s.accepts.tail }
    if ok then s1 else { s1 with drainQueue := s1.drainQueue ++ [messages] }

/-- External events driving a FileBackend: a log call (which writes the
single formatted message), the ready event of the stream, and a drain
event of the sink (which fires every registered once-drain callback in
order). -/
inductive FileEvent where
  | logCall : String → FileEvent
  | readySignal : FileEvent
  | drainSignal : FileEvent

/-- One event step of the FileBackend. -/
def fbStep (s : FileState) (e : FileEvent) : FileState :=
  match e with
  | .logCall m => fbWrite [m] s
  | .readySignal =>
      let s1 := { s with ready := true }
      let s2 := fbWrite s1.waiting s1
      { s2 with waiting := [] }
  | .drainSignal =>
      let q := s.drainQueue
      let s1 := { s with drainQueue := [] }
      q.foldl (fun st msgs => fbWrite msgs st) s1

/-- Run of a FileBackend over an event trace. -/
def fbRun (events : List FileEvent) (s : FileState) : FileState :=
  events.foldl fbStep s

/-- Fresh FileBackend right after construction, with a given sink
oracle: not ready, empty waiting buffer, nothing written. -/
def fbInit (accepts : List Bool) : FileState :=
  ⟨false, [], [], [], accepts⟩

/-- Fragment of the facade state relevant to namespace recording, with
array aliasing made explicit: heap holds the JavaScript arrays by
address, nsAddr is the address of the live namespaces array of the
facade, and queued lists the records sitting in the backend queue as
pairs of a message and the address of the namespaces array the record
carries (sendToBackend passes the array itself and the spread in
IndexedDBBackend.log copies the reference, not the array). -/
structure LJState where
  heap : List (List String)
  nsAddr : Nat
  queued : List (String × Nat)

/-- Facade log path into the backend queue: the queued record carries
the address of the live namespaces array. -/
def ljLog (message : String) (s : LJState) : LJState :=
  { s with queued := s.queued ++ [(message, s.nsAddr)] }

/-- Lumberjack.group: push the title onto the live namespaces array in
place. -/
def ljGroup (title : String) (s : LJState) : LJState :=
  { s with heap := s.heap.set s.nsAddr ((s.heap.getD s.nsAddr []) ++ [title]) }

/-- Lumberjack.groupEnd: pop the live namespaces array in place. -/
def ljGroupEnd (s : LJState) : LJState :=
  { s with heap := s.heap.set s.nsAddr (s.heap.getD s.nsAddr []).dropLast }

/-- Namespaces a queued record carries when it is serialized at flush
time: the then-current content of the array it references. -/
def resolveNamespaces (s : LJState) (r : String × Nat) : List String :=
  s.heap.getD r.2 []

/-- Concrete stored record used to instantiate theorems on a concrete
input. -/
def sampleRecord : StoredDetails :=
  ⟨"message", 0, ["arg"], ["ns"], "NOTICE", "ctx"⟩

theorem flatMap_recordsOfEntry_plain (dec : Json → Option Json)
    (data : List StoredDetails) :
    (data.map DurableEntry.plain).flatMap (recordsOfEntry dec) = data := by
  induction data with
  | nil => rfl
  | cons d rest ih => simp [recordsOfEntry, ih]

theorem recordsOfEntry_compressed_roundTrip (c : Codec) (hC : c.RoundTrip)
    (t : Int) (data : List StoredDetails) :
    recordsOfEntry c.decomp (.compressed t (c.comp (encodeRecords data)))
      = data := by
  show (((c.decomp (c.comp (encodeRecords data))).bind decodeRecords).getD [])
      = data
  rw [hC]
  simp [decodeRecords_encodeRecords]

theorem exportStore_append (dec : Json → Option Json)
    (a b : List DurableEntry) :
    exportStore dec (a ++ b) = exportStore dec a ++ exportStore dec b := by
  simp [exportStore]

/-- Claim C10: whenever the pending queue is empty or the durable store
is not initialized, flushToDatabase, and hence flush, resolves
successfully, performs no durable write and leaves the state (in
particular the pending queue) unchanged. -/
theorem flushToDatabase_noop_when_empty_or_uninitialized
    (c : Codec) (sup : Bool) (minRecords : Nat) (now : Int) (txFails : Bool)
    (s : BState) (h : s.toFlush = [] ∨ s.dbInit = false) :
    flushToDatabase c sup minRecords now txFails s = (s, .resolved, []) ∧
    flush c sup minRecords now txFails s = (s, .resolved, []) := by
  have key : flushToDatabase c sup minRecords now txFails s
      = (s, .resolved, []) := by
    rcases h with h | h
    · simp [flushToDatabase, h]
    · by_cases he : s.toFlush = [] <;> simp [flushToDatabase, he, h]
  exact ⟨key, key⟩

theorem flushToDatabase_noop_witness :
    flushToDatabase idCodec true 10 0 true ⟨[], [], true⟩
        = (⟨[], [], true⟩, .resolved, []) ∧
    flush idCodec true 10 0 true ⟨[], [], true⟩
        = (⟨[], [], true⟩, .resolved, []) :=
  flushToDatabase_noop_when_empty_or_uninitialized idCodec true 10 0 true
    ⟨[], [], true⟩ (Or.inl rfl)

/-- Claim C3: a batch at least as large as the compression threshold is
committed by the flush cycle as a single compressed entry, and
decompressing that entry (inflate, then JSON parsing) yields exactly
the batch: the same records with the same field values in the same
order. -/
theorem compression_roundTrip (c : Codec) (hC : c.RoundTrip)
    (minRecords : Nat) (now : Int) (s : BState) (B : List StoredDetails)
    (hB : s.toFlush = B) (hne : B ≠ []) (hdb : s.dbInit = true)
    (hmin : minRecords ≤ B.length) :
    (flushToDatabase c true minRecords now false s).2.2
        = [.compressed now (c.comp (encodeRecords B))] ∧
    (c.decomp (c.comp (encodeRecords B))).bind decodeRecords = some B ∧
    recordsOfEntry c.decomp (.compressed now (c.comp (encodeRecords B)))
        = B := by
  subst hB
  refine ⟨?_, ?_, recordsOfEntry_compressed_roundTrip c hC now _⟩
  · simp [flushToDatabase, hne, hdb, hmin]
  · rw [hC]
    simp [decodeRecords_encodeRecords]

theorem compression_roundTrip_witness :
    (flushToDatabase idCodec true 1 5 false ⟨[sampleRecord], [], true⟩).2.2
        = [.compressed 5 (idCodec.comp (encodeRecords [sampleRecord]))] ∧
    (idCodec.decomp (idCodec.comp (encodeRecords [sampleRecord]))).bind
        decodeRecords = some [sampleRecord] ∧
    recordsOfEntry idCodec.decomp
        (.compressed 5 (idCodec.comp (encodeRecords [sampleRecord])))
        = [sampleRecord] :=
  compression_roundTrip idCodec idCodec_roundTrip 1 5
    ⟨[sampleRecord], [], true⟩ [sampleRecord] rfl (by simp) rfl (by simp)

/-- Claim C6 names a code bug: the encoder hands an object straight to
the platform JSON serializer without catching, so a log call whose
details contain an argument the platform cannot serialize (for example
a circular object graph) raises to the caller instead of degrading to
a string fallback. -/
theorem log_raises_on_circular_argument :
    encode (.obj ⟨.error (), 1, false, false, "", "[object Object]"⟩)
        = .error () ∧
    logRecord "boom"
        ⟨0, [.obj ⟨.error (), 1, false, false, "", "[object Object]"⟩],
          [], "ERROR", "ctx"⟩ = .error () :=
  ⟨rfl, rfl⟩

/-- Claim C7 fails as stated: a falsy non-object value does not become
its string form; the number zero encodes to the empty string, not to
the string form of zero. -/
theorem encode_falsy_counterexample :
    encode (.num 0) = .ok "" ∧ jsToString (.num 0) = "0" ∧
    encode (.num 0) ≠ .ok (jsToString (.num 0)) := by
  refine ⟨rfl, rfl, by decide⟩

/-- Claim C5 fails as stated: a store holding one plain record exported
with batch size one dispatches two consumer calls (the second one
empty), while the claimed count of ceiling of M over k predicts a
single call. -/
theorem exportBatch_counterexample :
    exportBatchCalls 1 [sampleRecord] = [[sampleRecord], []] ∧
    (exportBatchCalls 1 [sampleRecord]).length = 2 ∧
    (2 : Nat) ≠ (1 + 1 - 1) / 1 := by
  refine ⟨rfl, rfl, by decide⟩

theorem exportBatchRun_cons (k : Nat) (r : StoredDetails)
    (rest b : List StoredDetails) :
    exportBatchRun k (r :: rest) b =
      if k ≤ b.length + 1 then (b ++ [r]) :: exportBatchRun k rest []
      else exportBatchRun k rest (b ++ [r]) := by
  simp [exportBatchRun]

theorem exportBatchRun_flatMap (k : Nat) (l b : List StoredDetails) :
    (exportBatchRun k l b).flatMap id = b ++ l := by
  induction l generalizing b with
  | nil => simp [exportBatchRun]
  | cons r rest ih =>
      rw [exportBatchRun_cons]
      by_cases h : k ≤ b.length + 1
      · rw [if_pos h]
        simp [ih]
      · rw [if_neg h, ih]
        simp

theorem exportBatchRun_ne_nil (k : Nat) (l b : List StoredDetails) :
    exportBatchRun k l b ≠ [] := by
  induction l generalizing b with
  | nil => simp [exportBatchRun]
  | cons r rest ih =>
      rw [exportBatchRun_cons]
      by_cases h : k ≤ b.length + 1
      · simp [h]
      · simp [h, ih]

theorem exportBatchRun_length (k : Nat) (hk : 0 < k) (l b : List StoredDetails)
    (hb : b.length < k) :
    (exportBatchRun k l b).length = (b.length + l.length) / k + 1 := by
  induction l generalizing b with
  | nil => simp [exportBatchRun, Nat.div_eq_of_lt hb]
  | cons r rest ih =>
      rw [exportBatchRun_cons]
      by_cases h : k ≤ b.length + 1
      · have ih0 := ih [] (by simpa using hk)
        rw [if_pos h, List.length_cons, ih0]
        simp only [List.length_nil, Nat.zero_add, List.length_cons]
        rw [show b.length + (rest.length + 1) = rest.length + k by omega,
          Nat.add_div_right _ hk]
      · have hble : (b ++ [r]).length < k := by
          simp only [List.length_append, List.length_cons, List.length_nil]
          omega
        rw [if_neg h, ih (b ++ [r]) hble]
        have harg : (b ++ [r]).length + rest.length
            = b.length + (r :: rest).length := by
          simp only [List.length_append, List.length_cons, List.length_nil]
          omega
        rw [harg]

theorem exportBatchRun_getLast (k : Nat) (hk : 0 < k)
    (l b : List StoredDetails) (hb : b.length < k) :
    (exportBatchRun k l b).getLast?.map List.length
      = some ((b.length + l.length) % k) := by
  induction l generalizing b with
  | nil => simp [exportBatchRun, Nat.mod_eq_of_lt hb]
  | cons r rest ih =>
      rw [exportBatchRun_cons]
      by_cases h : k ≤ b.length + 1
      · have ih0 := ih [] (by simpa using hk)
        obtain ⟨y, ys, hys⟩ :=
          List.exists_cons_of_ne_nil (exportBatchRun_ne_nil k rest [])
        rw [if_pos h, hys, List.getLast?_cons_cons, ← hys, ih0]
        simp only [List.length_nil, Nat.zero_add, List.length_cons]
        rw [show b.length + (rest.length + 1) = rest.length + k by omega,
          Nat.add_mod_right]
      · have hble : (b ++ [r]).length < k := by
          simp only [List.length_append, List.length_cons, List.length_nil]
          omega
        rw [if_neg h, ih (b ++ [r]) hble]
        have harg : (b ++ [r]).length + rest.length
            = b.length + (r :: rest).length := by
          simp only [List.length_append, List.length_cons, List.length_nil]
          omega
        rw [harg]

/-- Claim C5 amended: on a store of plain durable entries holding M
records, exportBatch with batch size k of at least one dispatches the
records in order, every record in exactly one consumer call, but the
number of dispatched calls is the floor of M over k plus one (not the
ceiling of M over k): the final call carries the M modulo k remaining
records and is empty when k divides M; the promise resolves only after
the cursor is exhausted and all dispatched calls complete. -/
theorem exportBatch_schedule (k : Nat) (hk : 0 < k)
    (records : List StoredDetails) :
    (exportBatchCalls k records).flatMap id = records ∧
    (exportBatchCalls k records).length = records.length / k + 1 ∧
    (exportBatchCalls k records).getLast?.map List.length
      = some (records.length % k) := by
  refine ⟨?_, ?_, ?_⟩
  · simpa using exportBatchRun_flatMap k records []
  · simpa using exportBatchRun_length k hk records [] (by simpa using hk)
  · simpa using exportBatchRun_getLast k hk records [] (by simpa using hk)

theorem exportBatch_schedule_witness :
    (exportBatchCalls 2 [sampleRecord]).flatMap id = [sampleRecord] ∧
    (exportBatchCalls 2 [sampleRecord]).length
      = [sampleRecord].length / 2 + 1 ∧
    (exportBatchCalls 2 [sampleRecord]).getLast?.map List.length
      = some ([sampleRecord].length % 2) :=
  exportBatch_schedule 2 (by decide) [sampleRecord]

theorem flush_success_records (c : Codec) (hC : c.RoundTrip) (sup : Bool)
    (minRecords : Nat) (now : Int) (s : BState) (hne : s.toFlush ≠ [])
    (hdb : s.dbInit = true) :
    (flushToDatabase c sup minRecords now false s).2.1 = .resolved ∧
    (flushToDatabase c sup minRecords now false s).2.2.flatMap
        (recordsOfEntry c.decomp) = s.toFlush ∧
    (flushToDatabase c sup minRecords now false s).1.store
      = s.store ++ (flushToDatabase c sup minRecords now false s).2.2 ∧
    (flushToDatabase c sup minRecords now false s).1.toFlush = [] ∧
    (flushToDatabase c sup minRecords now false s).1.dbInit = true := by
  by_cases hcomp : sup = true ∧ minRecords ≤ s.toFlush.length
  · simp [flushToDatabase, hne, hdb, hcomp,
      recordsOfEntry_compressed_roundTrip c hC]
  · simp [flushToDatabase, hne, hdb, hcomp, flatMap_recordsOfEntry_plain]

/-- Claim C1: when the durable transaction of a flush fails, the
promise is rejected, the store is unchanged, every original
(uncompressed) record of the swapped-out batch is present in the
pending queue again, and every record of the batch is included in the
records represented by the durable writes of the next successful
flush, whatever extra records were queued in between. -/
theorem flush_failure_requeues_batch (c : Codec) (hC : c.RoundTrip)
    (sup : Bool) (minRecords : Nat) (now now2 : Int) (s : BState)
    (B : List StoredDetails) (hB : s.toFlush = B) (hne : B ≠ [])
    (hdb : s.dbInit = true) :
    (flushToDatabase c sup minRecords now true s).2.1 = .rejected ∧
    (flushToDatabase c sup minRecords now true s).1.store = s.store ∧
    (∀ b ∈ B, b ∈ (flushToDatabase c sup minRecords now true s).1.toFlush) ∧
    ∀ extra : List StoredDetails,
      (flushToDatabase c sup minRecords now2 false
          { (flushToDatabase c sup minRecords now true s).1 with
            toFlush := (flushToDatabase c sup minRecords now true s).1.toFlush
              ++ extra }).2.1 = .resolved ∧
      ∀ b ∈ B,
        b ∈ (flushToDatabase c sup minRecords now2 false
            { (flushToDatabase c sup minRecords now true s).1 with
              toFlush :=
                (flushToDatabase c sup minRecords now true s).1.toFlush
                  ++ extra }).2.2.flatMap (recordsOfEntry c.decomp) := by
  subst hB
  have hfail : flushToDatabase c sup minRecords now true s
      = (s, .rejected, []) := by
    obtain ⟨t, st, d⟩ := s
    simp only [BState.dbInit] at hdb
    subst hdb
    simp [flushToDatabase, hne]
  rw [hfail]
  refine ⟨rfl, rfl, fun b hb => hb, fun extra => ?_⟩
  have hne2 : (({ s with toFlush := s.toFlush ++ extra } : BState)).toFlush
      ≠ [] := by
    show s.toFlush ++ extra ≠ []
    intro hcon
    exact hne (List.append_eq_nil.mp hcon).1
  have hsucc := flush_success_records c hC sup minRecords now2
    { s with toFlush := s.toFlush ++ extra } hne2 hdb
  refine ⟨hsucc.1, fun b hb => ?_⟩
  rw [hsucc.2.1]
  exact List.mem_append_left _ hb

theorem flush_failure_requeues_witness :
    (flushToDatabase idCodec true 10 0 true
        ⟨[sampleRecord], [], true⟩).2.1 = .rejected ∧
    (flushToDatabase idCodec true 10 0 true
        ⟨[sampleRecord], [], true⟩).1.store = [] ∧
    (∀ b ∈ [sampleRecord],
      b ∈ (flushToDatabase idCodec true 10 0 true
        ⟨[sampleRecord], [], true⟩).1.toFlush) ∧
    ∀ extra : List StoredDetails,
      (flushToDatabase idCodec true 10 0 false
          { (flushToDatabase idCodec true 10 0 true
              ⟨[sampleRecord], [], true⟩).1 with
            toFlush := (flushToDatabase idCodec true 10 0 true
              ⟨[sampleRecord], [], true⟩).1.toFlush ++ extra }).2.1
        = .resolved ∧
      ∀ b ∈ [sampleRecord],
        b ∈ (flushToDatabase idCodec true 10 0 false
            { (flushToDatabase idCodec true 10 0 true
                ⟨[sampleRecord], [], true⟩).1 with
              toFlush := (flushToDatabase idCodec true 10 0 true
                ⟨[sampleRecord], [], true⟩).1.toFlush ++ extra }).2.2.flatMap
            (recordsOfEntry idCodec.decomp) :=
  flush_failure_requeues_batch idCodec idCodec_roundTrip true 10 0 0
    ⟨[sampleRecord], [], true⟩ [sampleRecord] rfl (by simp) rfl

theorem runFlushes_cons (c : Codec) (sup : Bool) (minRecords : Nat)
    (now : Int) (B : List StoredDetails) (rest : List (List StoredDetails))
    (s : BState) :
    runFlushes c sup minRecords now (B :: rest) s
      = runFlushes c sup minRecords now rest
          ((flushToDatabase c sup minRecords now false
            { s with toFlush := B }).1) := rfl

theorem runFlushes_export (c : Codec) (hC : c.RoundTrip) (sup : Bool)
    (minRecords : Nat) (now : Int) (batches : List (List StoredDetails)) :
    ∀ s : BState, s.dbInit = true →
      (runFlushes c sup minRecords now batches s).dbInit = true ∧
      exportStore c.decomp (runFlushes c sup minRecords now batches s).store
        = exportStore c.decomp s.store ++ batches.flatMap id := by
  induction batches with
  | nil => intro s hdb; exact ⟨hdb, by simp [runFlushes]⟩
  | cons B rest ih =>
      intro s hdb
      rw [runFlushes_cons]
      by_cases hB : B = []
      · subst hB
        have hstep : flushToDatabase c sup minRecords now false
            { s with toFlush := [] }
            = ({ s with toFlush := [] }, .resolved, []) := by
          simp [flushToDatabase]
        rw [hstep]
        have := ih { s with toFlush := [] } hdb
        simpa using this
      · have hne : (({ s with toFlush := B } : BState)).toFlush ≠ [] := hB
        have hsucc := flush_success_records c hC sup minRecords now
          { s with toFlush := B } hne hdb
        have := ih _ hsucc.2.2.2.2
        refine ⟨this.1, ?_⟩
        rw [this.2, hsucc.2.2.1]
        show exportStore c.decomp (s.store ++ _) ++ _ = _
        rw [exportStore_append]
        have hrecs : exportStore c.decomp
            (flushToDatabase c sup minRecords now false
              { s with toFlush := B }).2.2 = B := hsucc.2.1
        rw [hrecs]
        simp

/-- Claim C2: starting from an initialized empty store, after any
sequence of successful flushes with no concurrent eviction, export
returns exactly the union of all records committed by those flushes,
compressed entries transparently expanded back into their constituent
records and plain entries included as they are, in insertion order. -/
theorem export_after_successful_flushes (c : Codec) (hC : c.RoundTrip)
    (sup : Bool) (minRecords : Nat) (now : Int)
    (batches : List (List StoredDetails)) :
    exportStore c.decomp
        (runFlushes c sup minRecords now batches ⟨[], [], true⟩).store
      = batches.flatMap id := by
  have h := runFlushes_export c hC sup minRecords now batches
    ⟨[], [], true⟩ rfl
  simpa [exportStore] using h.2

theorem export_after_successful_flushes_witness :
    exportStore idCodec.decomp
        (runFlushes idCodec true 1 0 [[sampleRecord], []]
          ⟨[], [], true⟩).store
      = ([[sampleRecord], []] : List (List StoredDetails)).flatMap id :=
  export_after_successful_flushes idCodec idCodec_roundTrip true 1 0
    [[sampleRecord], []]

/-- Claim C9 fails as stated: the record queued by a log call carries a
reference to the live namespace stack, so ending a group after the log
call and before the flush changes the namespaces the record resolves to
at flush time away from the snapshot taken at the log call. -/
theorem namespaces_counterexample :
    resolveNamespaces (ljGroupEnd (ljLog "m" ⟨[["g1"]], 0, []⟩)) ("m", 0)
        = [] ∧
    (ljLog "m" ⟨[["g1"]], 0, []⟩).queued = [("m", 0)] ∧
    resolveNamespaces (ljLog "m" ⟨[["g1"]], 0, []⟩) ("m", 0) = ["g1"] ∧
    ([] : List String) ≠ ["g1"] := by
  refine ⟨rfl, rfl, rfl, by decide⟩

/-- Claim C9 amended: the record queued by a log call stores the
address of the live namespace stack, not a snapshot: the namespaces it
carries into durable storage are those the stack holds at flush time,
so a group or groupEnd call after log and before flush is visible on
the record. -/
theorem namespaces_alias_live_stack (s : LJState) (message title : String)
    (h : s.nsAddr < s.heap.length) :
    (ljLog message s).queued.getLast? = some (message, s.nsAddr) ∧
    resolveNamespaces (ljGroup title (ljLog message s)) (message, s.nsAddr)
      = (s.heap.getD s.nsAddr []) ++ [title] ∧
    resolveNamespaces (ljGroupEnd (ljLog message s)) (message, s.nsAddr)
      = (s.heap.getD s.nsAddr []).dropLast := by
  refine ⟨List.getLast?_concat _, ?_, ?_⟩
  · show ((ljGroup title (ljLog message s)).heap.getD s.nsAddr []) = _
    simp [ljGroup, ljLog, List.getD, List.getElem?_set_self h]
  · show ((ljGroupEnd (ljLog message s)).heap.getD s.nsAddr []) = _
    simp [ljGroupEnd, ljLog, List.getD, List.getElem?_set_self h]

/-- Claim C8 fails as stated: once the stream is ready, a log call made
while the sink is backpressured is handed to stream.write immediately
as an independent write; it is not accumulated into a pending buffer
until the drain signal.  In the trace below the first write reports
backpressure, yet the second log call produces a second stream.write
before any drain. -/
theorem fileBackend_counterexample :
    (fbRun [.readySignal, .logCall "a", .logCall "b"]
        (fbInit [false])).written = ["a", "b"] ∧
    (["a", "b"] : List String).length ≠ 1 := by
  refine ⟨rfl, by decide⟩

/-- Claim C8 amended: before the stream signals ready every log call is
queued into the waiting buffer with nothing written; the first ready
signal hands the entire waiting buffer to stream.write as one joined
write and switches to immediate-write mode; when a write reports
backpressure, the exact same buffered content is written again after
the drain signal; but a log call made in the meantime is written
immediately as its own independent stream.write, not accumulated into
the pending buffer. -/
theorem fileBackend_buffering (s1 s2 : FileState) (m : String)
    (msgs : List String) (h1 : s1.ready = false) (hw : s1.waiting ≠ [])
    (h2 : s2.ready = true) (hq : s2.drainQueue = [msgs]) (hm : msgs ≠ []) :
    ((fbStep s1 (.logCall m)).waiting = s1.waiting ++ [m] ∧
      (fbStep s1 (.logCall m)).written = s1.written) ∧
    ((fbStep s1 .readySignal).written
        = s1.written ++ [String.intercalate "\r\n" s1.waiting] ∧
      (fbStep s1 .readySignal).ready = true ∧
      (fbStep s1 .readySignal).waiting = []) ∧
    ((fbStep s2 (.logCall m)).written
        = s2.written ++ [String.intercalate "\r\n" [m]]) ∧
    ((fbStep s2 .drainSignal).written
        = s2.written ++ [String.intercalate "\r\n" msgs]) := by
  refine ⟨⟨?_, ?_⟩, ⟨?_, ?_, ?_⟩, ?_, ?_⟩
  · simp [fbStep, fbWrite, h1]
  · simp [fbStep, fbWrite, h1]
  · simp only [fbStep, fbWrite, h1]
    try simp [hw]
    try split <;> rfl
  · simp only [fbStep, fbWrite, h1]
    try simp [hw]
    try split <;> rfl
  · simp only [fbStep, fbWrite, h1]
  · simp only [fbStep, fbWrite, h2]
    try simp
    try split <;> rfl
  · simp only [fbStep, hq]
    simp only [List.foldl_cons, List.foldl_nil]
    simp only [fbWrite, h2]
    try simp [hm]
    try split <;> rfl

theorem fileBackend_buffering_witness :
    ((fbStep ⟨false, ["a"], [], [], []⟩ (.logCall "c")).waiting
        = ["a"] ++ ["c"] ∧
      (fbStep ⟨false, ["a"], [], [], []⟩ (.logCall "c")).written = []) ∧
    ((fbStep ⟨false, ["a"], [], [], []⟩ .readySignal).written
        = [] ++ [String.intercalate "\r\n" ["a"]] ∧
      (fbStep ⟨false, ["a"], [], [], []⟩ .readySignal).ready = true ∧
      (fbStep ⟨false, ["a"], [], [], []⟩ .readySignal).waiting = []) ∧
    ((fbStep ⟨true, [], [["x"]], [], []⟩ (.logCall "c")).written
        = [] ++ [String.intercalate "\r\n" ["c"]]) ∧
    ((fbStep ⟨true, [], [["x"]], [], []⟩ .drainSignal).written
        = [] ++ [String.intercalate "\r\n" ["x"]]) := by
  have h := fileBackend_buffering ⟨false, ["a"], [], [], []⟩
    ⟨true, [], [["x"]], [], []⟩ "c" ["x"] rfl (by decide) rfl rfl (by decide)
  exact ⟨⟨h.1.1, h.1.2⟩, h.2.1, h.2.2.1, h.2.2.2⟩

theorem encode_eq_specEncode (v : JsValue) : encode v = specEncode v := by
  cases v with
  | obj o =>
      simp only [encode, specEncode, isFalsy]
      cases hs : o.stringify with
      | error u => rfl
      | ok encoded =>
          by_cases ha : encoded = "{}" <;>
            by_cases hb : o.keysCount = 0 <;>
            by_cases hc : o.ctorIsObject = true <;>
            by_cases hd : o.ctorNameIsString = true <;>
            simp [ha, hb, hc, hd]
  | num n => rfl
  | str s => rfl
  | bool b => rfl
  | nullv => rfl
  | undef => rfl

theorem encodeArgs_eq_spec (l : List JsValue) :
    encodeArgs l = specEncodeArgs l := by
  induction l with
  | nil => rfl
  | cons v rest ih =>
      simp only [encodeArgs, specEncodeArgs, encode_eq_specEncode, ih]

/-- Claim C7 amended: the record queued by a log call has timestamp
equal to the integer epoch milliseconds of the details timestamp, and
each argument replaced by its encoding, where the encoding maps a falsy
value (zero, false, the empty string, null, undefined) to the empty
string, an object to its JSON text, substituting the constructor name
only when that text is the empty object literal, the object has own
enumerable keys, and its constructor property is itself an object with
a string name (a serialization exception propagates), and any other
value to its string form. -/
theorem logRecord_matches_spec (message : String) (d : JsLogDetails) :
    logRecord message d = specLogRecord message d := by
  simp only [logRecord, specLogRecord, encodeArgs_eq_spec]

theorem mem_take_filter_sorted (now e : Int) (k : Nat)
    (l : List DurableEntry)
    (hl : l.Pairwise (fun a b => entryTimestamp b < entryTimestamp a))
    (r : DurableEntry) :
    r ∈ (l.filter (fun d => now - e ≤ entryTimestamp d)).take k ↔
      now - e ≤ entryTimestamp r ∧ r ∈ l.take k := by
  induction hl generalizing k with
  | nil => simp
  | cons hrel hpw ih =>
      rename_i a tl
      by_cases hfa : now - e ≤ entryTimestamp a
      · rw [List.filter_cons_of_pos (by simpa using hfa)]
        cases k with
        | zero => simp
        | succ k₀ =>
            simp only [List.take_succ_cons, List.mem_cons]
            constructor
            · rintro (rfl | hr)
              · exact ⟨hfa, Or.inl rfl⟩
              · obtain ⟨h1, h2⟩ := (ih k₀).mp hr
                exact ⟨h1, Or.inr h2⟩
            · rintro ⟨h1, rfl | h2⟩
              · exact Or.inl rfl
              · exact Or.inr ((ih k₀).mpr ⟨h1, h2⟩)
      · have hall : ∀ b ∈ a :: tl, ¬ (now - e ≤ entryTimestamp b) := by
          intro b hb
          rcases List.mem_cons.mp hb with rfl | hbtl
          · exact hfa
          · intro hfresh
            exact hfa (le_of_lt (lt_of_le_of_lt hfresh (hrel b hbtl)))
        have hfil :
            (a :: tl).filter (fun d => now - e ≤ entryTimestamp d) = [] :=
          List.filter_eq_nil_iff.mpr
            (fun x hx => by simpa using hall x hx)
        rw [hfil]
        simp only [List.take_nil, List.not_mem_nil, false_iff]
        rintro ⟨h1, h2⟩
        exact hall r (List.mem_of_mem_take h2) h1

/-- Claim C4: after one eviction pass over a store whose entries carry
strictly increasing timestamps, an entry remains exactly when it
satisfies the age rule for the configured expire (the sub-pass being
skipped entirely when expire is null) and lies among the
maxNumberOfLogs most recent entries in descending insertion order (the
sub-pass being skipped entirely when maxNumberOfLogs is null). -/
theorem clearOldData_membership (now : Int) (expire : Option Int)
    (maxNumberOfLogs : Option Nat) (store : List DurableEntry)
    (hsorted :
      store.Pairwise (fun a b => entryTimestamp a < entryTimestamp b))
    (r : DurableEntry) :
    r ∈ clearOldData now expire maxNumberOfLogs store ↔
      r ∈ store ∧
      (∀ e, expire = some e → now - entryTimestamp r ≤ e) ∧
      (∀ m, maxNumberOfLogs = some m →
        r ∈ (store.reverse.take m).reverse) := by
  cases expire with
  | none =>
      cases maxNumberOfLogs with
      | none => simp [clearOldData]
      | some m =>
          show r ∈ (store.reverse.take m).reverse ↔ _
          constructor
          · intro h
            have hmem : r ∈ store := by
              have := List.mem_of_mem_take (List.mem_reverse.mp h)
              exact List.mem_reverse.mp this
            refine ⟨hmem, ?_, ?_⟩
            · intro e he
              cases he
            · intro m₀ hm₀
              cases hm₀
              exact h
          · rintro ⟨-, -, h3⟩
            exact h3 m rfl
  | some e =>
      cases maxNumberOfLogs with
      | none =>
          show r ∈ store.filter (fun d => now - e ≤ entryTimestamp d) ↔ _
          rw [List.mem_filter]
          constructor
          · rintro ⟨hmem, hp⟩
            have hp₀ : now - e ≤ entryTimestamp r := by simpa using hp
            refine ⟨hmem, ?_, ?_⟩
            · intro e₀ he₀
              cases he₀
              omega
            · intro m₀ hm₀
              cases hm₀
          · rintro ⟨hmem, h2, -⟩
            have := h2 e rfl
            exact ⟨hmem, by simpa using (by omega :
              now - e ≤ entryTimestamp r)⟩
      | some m =>
          show r ∈ ((store.filter
              (fun d => now - e ≤ entryTimestamp d)).reverse.take m).reverse
            ↔ _
          rw [List.mem_reverse, ← List.filter_reverse]
          rw [mem_take_filter_sorted now e m store.reverse
            (List.pairwise_reverse.mpr hsorted) r]
          constructor
          · rintro ⟨hp, htake⟩
            have hmem : r ∈ store :=
              List.mem_reverse.mp (List.mem_of_mem_take htake)
            exact ⟨hmem, fun e₀ he₀ => by cases he₀; omega,
              fun m₀ hm₀ => by cases hm₀; exact List.mem_reverse.mpr htake⟩
          · rintro ⟨hmem, h2, h3⟩
            have := h2 e rfl
            exact ⟨by omega, List.mem_reverse.mp (h3 m rfl)⟩

theorem clearOldData_membership_witness :
    (DurableEntry.plain ⟨"b", 2, [], [], "NOTICE", "c"⟩) ∈
        clearOldData 10 (some 8) (some 2)
          [.plain ⟨"a", 1, [], [], "NOTICE", "c"⟩,
            .plain ⟨"b", 2, [], [], "NOTICE", "c"⟩,
            .plain ⟨"c", 3, [], [], "NOTICE", "c"⟩] ↔
      (DurableEntry.plain ⟨"b", 2, [], [], "NOTICE", "c"⟩) ∈
          [DurableEntry.plain ⟨"a", 1, [], [], "NOTICE", "c"⟩,
            .plain ⟨"b", 2, [], [], "NOTICE", "c"⟩,
            .plain ⟨"c", 3, [], [], "NOTICE", "c"⟩] ∧
      (∀ e, (some 8 : Option Int) = some e →
        (10 : Int) - entryTimestamp
          (.plain ⟨"b", 2, [], [], "NOTICE", "c"⟩) ≤ e) ∧
      (∀ m, (some 2 : Option Nat) = some m →
        (DurableEntry.plain ⟨"b", 2, [], [], "NOTICE", "c"⟩) ∈
          (([DurableEntry.plain ⟨"a", 1, [], [], "NOTICE", "c"⟩,
            .plain ⟨"b", 2, [], [], "NOTICE", "c"⟩,
            .plain ⟨"c", 3, [], [], "NOTICE", "c"⟩].reverse.take m).reverse)) :=
  clearOldData_membership 10 (some 8) (some 2) _
    (by simp [List.pairwise_cons, entryTimestamp]) _

theorem namespaces_alias_witness :
    (ljLog "m" ⟨[["g1"]], 0, []⟩).queued.getLast? = some ("m", 0) ∧
    resolveNamespaces (ljGroup "g2" (ljLog "m" ⟨[["g1"]], 0, []⟩)) ("m", 0)
      = ((⟨[["g1"]], 0, []⟩ : LJState).heap.getD 0 []) ++ ["g2"] ∧
    resolveNamespaces (ljGroupEnd (ljLog "m" ⟨[["g1"]], 0, []⟩)) ("m", 0)
      = ((⟨[["g1"]], 0, []⟩ : LJState).heap.getD 0 []).dropLast :=
  namespaces_alias_live_stack ⟨[["g1"]], 0, []⟩ "m" "g2" (by decide)

end Lumberjack
